import Mathlib

/-!
# Raw-item lowering (`ra_hir_def::nameres::raw`) — shallow embedding

This file embeds the raw-item collector of `crates/ra_hir_def/src/nameres/raw.rs`:
the single-pass lowering of a file's syntax tree into a `RawItems` value (five
arena-backed entity stores plus a scoped item list per scope).

External oracles (the ast-id map, the hygiene context, the attribute parser and
the use-tree expansion) are pure in the source; their answers are carried as
fields on the syntax-tree nodes: each item node stores its already-parsed
attribute set, its resolved visibility, its assigned ast id, and — for a use
item — the flattened list of `(path, alias, is_glob)` leaves that
`ModPath::expand_use_item` would report through its callback.

Arenas are embedded as Lean lists with `alloc xs x = xs ++ [x]` returning the
index `xs.length`; the `unreachable!()` branch of `push_item` is embedded as an
`aborted` flag on the collector state.
-/

/-- Hygiene-resolved names (`hir_expand::name::Name`), opaque at this layer. -/
abbrev Name := String

/-- File-local positional ids handed out by the ast-id-map oracle. -/
abbrev AstId := Nat

/-- Resolved visibilities (`RawVisibility`), opaque values from the hygiene oracle. -/
abbrev Vis := Nat

/-- `ModPath`: a path as a list of segments (structure beyond segments is opaque). -/
structure ModPath where
  segments : List Name
deriving DecidableEq, Repr

/-- `ImportAlias`: explicit `as name`, or the `as _` underscore placeholder. -/
inductive ImportAlias where
  | under : ImportAlias
  | named (n : Name) : ImportAlias
deriving DecidableEq, Repr

/-- A top-level token tree inside an attribute's argument list: an identifier
leaf (with its text) or anything else (`Literal`, `Punct`, `Subtree`). -/
inductive TokenTree where
  | identLeaf (text : String) : TokenTree
  | otherTok : TokenTree
deriving DecidableEq, Repr

/-- One parsed attribute: its key, and its token-tree argument when it has one. -/
structure Attr where
  key : String
  ttInput : Option (List TokenTree)
deriving DecidableEq, Repr

/-- `Attrs.by_key(k).exists()`: some attribute with key `k` is present. -/
def keyExists (attrs : List Attr) (k : String) : Bool :=
  attrs.any (fun a => a.key == k)

/-- `Attrs.by_key(k).tt_values()`: the token-tree arguments of the attributes
with key `k` (those that have a token-tree argument). -/
def ttValues (attrs : List Attr) (k : String) : List (List TokenTree) :=
  (attrs.filter (fun a => a.key == k)).filterMap (fun a => a.ttInput)

/-- `hay` begins with `needle` (character-wise). -/
def takesLead : List Char → List Char → Bool
  | [], _ => true
  | _ :: _, [] => false
  | a :: as, b :: bs => a == b && takesLead as bs

/-- Substring test on character lists: some suffix of `hay` begins with `needle`. -/
def subIn (needle : List Char) : List Char → Bool
  | [] => needle.isEmpty
  | c :: rest => takesLead needle (c :: rest) || subIn needle rest

/-- Rust `str::contains`: `pat` occurs as a contiguous substring of `hay`. -/
def strContains (hay pat : String) : Bool :=
  subIn pat.toList hay.toList

/-- A flattened use-tree leaf as reported by the `expand_use_item` oracle's
callback: `(path, alias, is_glob)`. -/
structure UseLeaf where
  path : ModPath
  al : Option ImportAlias
  isGlob : Bool
deriving DecidableEq, Repr

/-- `ast::StructKind` classification of a struct body. -/
inductive StructDefKind where
  | record : StructDefKind
  | tuple : StructDefKind
  | unit : StructDefKind
deriving DecidableEq, Repr

/-- `DefKind`: the closed variant of definition kinds, each carrying its ast id. -/
inductive DefKind where
  | function (id : AstId) : DefKind
  | struct (id : AstId) (k : StructDefKind) : DefKind
  | union (id : AstId) : DefKind
  | enum (id : AstId) : DefKind
  | const (id : AstId) : DefKind
  | sta (id : AstId) : DefKind
  | trait (id : AstId) : DefKind
  | typeAlias (id : AstId) : DefKind
deriving DecidableEq, Repr

/-- `RawItemKind`: a tag carrying the arena index of the entity it references. -/
inductive RawItemKind where
  | moduleTag (i : Nat) : RawItemKind
  | importTag (i : Nat) : RawItemKind
  | defTag (i : Nat) : RawItemKind
  | macTag (i : Nat) : RawItemKind
  | implTag (i : Nat) : RawItemKind
deriving DecidableEq, Repr

/-- `RawItem`: one scoped-item-list entry, an attribute set plus a kind tag. -/
structure RawItem where
  attrs : List Attr
  kind : RawItemKind
deriving DecidableEq, Repr

/-- `ModuleData`: a module declaration (`mod m;`) or an inline definition
(`mod m { ... }`) owning its own scoped item list. -/
inductive ModuleData where
  | decl (name : Name) (vis : Vis) (astId : AstId) : ModuleData
  | defn (name : Name) (vis : Vis) (astId : AstId) (items : List RawItem) : ModuleData
deriving DecidableEq, Repr

/-- `ImportData`: one flattened import record. -/
structure ImportData where
  path : ModPath
  al : Option ImportAlias
  isGlob : Bool
  isPrelude : Bool
  isExtCrate : Bool
  isMacUse : Bool
  vis : Vis
deriving DecidableEq, Repr

/-- `DefData`: a named definition record. -/
structure DefData where
  name : Name
  kind : DefKind
  vis : Vis
deriving DecidableEq, Repr

/-- `MacroData`: a macro-invocation record with its derived flags. -/
structure MacData where
  astId : AstId
  path : ModPath
  name : Option Name
  exportFlag : Bool
  localInner : Bool
  builtin : Bool
deriving DecidableEq, Repr

/-- `ImplData`: an impl-block record, ast id only. -/
structure ImplData where
  astId : AstId
deriving DecidableEq, Repr

/-- `RawItems`: the five entity stores plus the top-level scoped item list. -/
structure RawItems where
  modules : List ModuleData
  imports : List ImportData
  defs : List DefData
  macs : List MacData
  impls : List ImplData
  items : List RawItem
deriving DecidableEq, Repr

/-- `RawItems::default()`: all stores and the top-level list empty. -/
def RawItems.empty : RawItems := ⟨[], [], [], [], [], []⟩

/-- An item appearing inside an external-linkage block (`ast::ExternItem`). -/
inductive ExtItem where
  | fnItem (name : Option Name) (attrs : List Attr) (vis : Vis) (astId : AstId) : ExtItem
  | staItem (name : Option Name) (attrs : List Attr) (vis : Vis) (astId : AstId) : ExtItem
deriving DecidableEq, Repr

/-- The attribute set the collector parses for an item of an external block. -/
def ExtItem.attrs : ExtItem → List Attr
  | .fnItem _ a _ _ => a
  | .staItem _ a _ _ => a

/-- `ast::ModuleItem`: a top-level item node, carrying the oracle answers the
collector consults (parsed attributes, resolved visibility, assigned ast id,
atom-attribute names for `has_atom_attr`, and flattened use leaves). -/
inductive ModuleItem where
  | module (name : Option Name) (attrs : List Attr) (vis : Vis) (astId : AstId)
      (semi : Bool) (body : Option (List ModuleItem)) : ModuleItem
  | useItem (attrs : List Attr) (vis : Vis) (atoms : List String)
      (leaves : List UseLeaf) : ModuleItem
  | extCrate (nameRef : Option Name) (attrs : List Attr) (vis : Vis)
      (atoms : List String) (al : Option (Option Name)) : ModuleItem
  | implDef (attrs : List Attr) (vis : Vis) (astId : AstId) : ModuleItem
  | structDef (name : Option Name) (attrs : List Attr) (vis : Vis) (astId : AstId)
      (sk : StructDefKind) : ModuleItem
  | unionDef (name : Option Name) (attrs : List Attr) (vis : Vis) (astId : AstId) : ModuleItem
  | enumDef (name : Option Name) (attrs : List Attr) (vis : Vis) (astId : AstId) : ModuleItem
  | fnDef (name : Option Name) (attrs : List Attr) (vis : Vis) (astId : AstId) : ModuleItem
  | traitDef (name : Option Name) (attrs : List Attr) (vis : Vis) (astId : AstId) : ModuleItem
  | typeAliasDef (name : Option Name) (attrs : List Attr) (vis : Vis) (astId : AstId) : ModuleItem
  | constDef (name : Option Name) (attrs : List Attr) (vis : Vis) (astId : AstId) : ModuleItem
  | staticDef (name : Option Name) (attrs : List Attr) (vis : Vis) (astId : AstId) : ModuleItem
  | macCall (path : Option ModPath) (name : Option Name) (attrs : List Attr)
      (vis : Vis) (astId : AstId) : ModuleItem
  | extBlock (attrs : List Attr) (vis : Vis) (body : Option (List ExtItem)) : ModuleItem

/-- Collector state: the `RawItems` under construction plus a flag recording
whether the `unreachable!()` branch of `push_item` was ever hit. -/
structure CState where
  raw : RawItems
  aborted : Bool
deriving DecidableEq, Repr

/-- The collector's starting state (`RawItems::default()`, no abort). -/
def initState : CState := ⟨RawItems.empty, false⟩

/-- `push_item`: append a `(attrs, kind)` entry to the current scope — the
module-definition entity at `m` when `cur = some m` (the declaration case is
`unreachable!()`, embedded as setting `aborted`), or the top-level list. -/
def pushItem (st : CState) (cur : Option Nat) (attrs : List Attr)
    (kind : RawItemKind) : CState :=
  match cur with
  | none =>
    { st with raw := { st.raw with items := st.raw.items ++ [⟨attrs, kind⟩] } }
  | some m =>
    match st.raw.modules[m]? with
    | some (ModuleData.defn n v a its) =>
      { st with raw :=
        { st.raw with
          modules := st.raw.modules.set m (.defn n v a (its ++ [⟨attrs, kind⟩])) } }
    | _ => { st with aborted := true }

/-- `push_import`: allocate the import record, then push its tag. -/
def pushImport (st : CState) (cur : Option Nat) (attrs : List Attr)
    (d : ImportData) : CState :=
  let st1 := { st with raw := { st.raw with imports := st.raw.imports ++ [d] } }
  pushItem st1 cur attrs (.importTag st.raw.imports.length)

/-- The shared `if let Some(name) = name { alloc DefData; push_item }` tail of
`add_item` and of the extern-block loop: a definition is recorded only when the
name is present; a nameless item leaves the state unchanged. -/
def addDef (st : CState) (cur : Option Nat) (attrs : List Attr) (vis : Vis)
    (kind : DefKind) : Option Name → CState
  | some n =>
    let st1 := { st with raw := { st.raw with defs := st.raw.defs ++ [⟨n, kind, vis⟩] } }
    pushItem st1 cur attrs (.defTag st.raw.defs.length)
  | none => st

/-- `add_use_item`: flatten via the (pre-answered) use-tree oracle into a
buffer of import records sharing the statement's visibility and prelude flag,
then push each with a clone of the statement's attributes. -/
def addUseItem (st : CState) (cur : Option Nat) (attrs : List Attr) (vis : Vis)
    (atoms : List String) (leaves : List UseLeaf) : CState :=
  let isPrelude := atoms.contains "prelude_import"
  let buf := leaves.map (fun l =>
    ImportData.mk l.path l.al l.isGlob isPrelude false false vis)
  buf.foldl (fun s d => pushImport s cur attrs d) st

/-- `add_extern_crate_item`: requires a name reference; builds a one-segment
path from it, maps the alias syntax (underscore when the alias has no name),
reads the `macro_use` atom attribute, and pushes a single import record. -/
def addExtCrate (st : CState) (cur : Option Nat) (nameRef : Option Name)
    (attrs : List Attr) (vis : Vis) (atoms : List String)
    (al : Option (Option Name)) : CState :=
  match nameRef with
  | none => st
  | some n =>
    let path : ModPath := ⟨[n]⟩
    let aliasV : Option ImportAlias := al.map (fun an =>
      match an with
      | some nm => ImportAlias.named nm
      | none => ImportAlias.under)
    let isMacUse := atoms.contains "macro_use"
    pushImport st cur attrs ⟨path, aliasV, false, false, true, isMacUse, vis⟩

/-- `add_macro`: requires a resolvable path; derives the export, local-inner
and builtin flags from the attribute set, allocates the record, pushes its tag. -/
def addMacCall (st : CState) (cur : Option Nat) (path? : Option ModPath)
    (name? : Option Name) (attrs : List Attr) (astId : AstId) : CState :=
  match path? with
  | none => st
  | some path =>
    let exportFlag := keyExists attrs "macro_export"
    let localInner :=
      if exportFlag then
        (ttValues attrs "macro_export").flatten.any (fun t =>
          match t with
          | TokenTree.identLeaf s => strContains s "local_inner_macros"
          | TokenTree.otherTok => false)
      else false
    let builtin := keyExists attrs "rustc_builtin_macro"
    let st1 := { st with raw :=
      { st.raw with macs := st.raw.macs ++ [⟨astId, path, name?, exportFlag, localInner, builtin⟩] } }
    pushItem st1 cur attrs (.macTag st.raw.macs.length)

/-- `add_impl`: allocate the impl record and push its tag. -/
def addImpl (st : CState) (cur : Option Nat) (attrs : List Attr)
    (astId : AstId) : CState :=
  let st1 := { st with raw := { st.raw with impls := st.raw.impls ++ [⟨astId⟩] } }
  pushItem st1 cur attrs (.implTag st.raw.impls.length)

/-- The per-item body of the extern-block loop: same kind computation and the
same name-required-or-dropped tail as top-level definitions. -/
def addExtItem (st : CState) (cur : Option Nat) : ExtItem → CState
  | .fnItem name attrs vis aid => addDef st cur attrs vis (.function aid) name
  | .staItem name attrs vis aid => addDef st cur attrs vis (.sta aid) name

/-- `add_extern_block`: iterate the contained items into the current scope; a
block without an item list contributes nothing. -/
def addExtBlock (st : CState) (cur : Option Nat) : Option (List ExtItem) → CState
  | none => st
  | some its => its.foldl (fun s it => addExtItem s cur it) st

/-- Allocate a module-definition entity with an empty item list
(`ModuleData::Definition { .., items: Vec::new() }`). -/
def allocDefn (st : CState) (n : Name) (vis : Vis) (aid : AstId) : CState :=
  { st with raw := { st.raw with modules := st.raw.modules ++ [.defn n vis aid []] } }

mutual

/-- `add_item`: dispatch on the syntax kind; the module case embeds
`add_module` (name required; semicolon ⇒ declaration; body ⇒ definition with a
recursive visit of the body in the new scope; neither ⇒ nothing). -/
def addItem (st : CState) (cur : Option Nat) (item : ModuleItem) : CState :=
  match item with
  | .module name attrs vis aid semi body =>
    match name with
    | none => st
    | some n =>
      if semi then
        let idx := st.raw.modules.length
        let st1 := { st with raw :=
          { st.raw with modules := st.raw.modules ++ [.decl n vis aid] } }
        pushItem st1 cur attrs (.moduleTag idx)
      else
        match body with
        | some bs =>
          let idx := st.raw.modules.length
          let st1 := allocDefn st n vis aid
          let st2 := processItems st1 (some idx) bs
          pushItem st2 cur attrs (.moduleTag idx)
        | none => st
  | .useItem attrs vis atoms leaves => addUseItem st cur attrs vis atoms leaves
  | .extCrate nr attrs vis atoms al => addExtCrate st cur nr attrs vis atoms al
  | .implDef attrs _ aid => addImpl st cur attrs aid
  | .structDef name attrs vis aid sk => addDef st cur attrs vis (.struct aid sk) name
  | .unionDef name attrs vis aid => addDef st cur attrs vis (.union aid) name
  | .enumDef name attrs vis aid => addDef st cur attrs vis (.enum aid) name
  | .fnDef name attrs vis aid => addDef st cur attrs vis (.function aid) name
  | .traitDef name attrs vis aid => addDef st cur attrs vis (.trait aid) name
  | .typeAliasDef name attrs vis aid => addDef st cur attrs vis (.typeAlias aid) name
  | .constDef name attrs vis aid => addDef st cur attrs vis (.const aid) name
  | .staticDef name attrs vis aid => addDef st cur attrs vis (.sta aid) name
  | .macCall p nm attrs _ aid => addMacCall st cur p nm attrs aid
  | .extBlock _ _ body => addExtBlock st cur body
termination_by sizeOf item

/-- `process_module`: visit the scope's items in source order. -/
def processItems (st : CState) (cur : Option Nat) (items : List ModuleItem) : CState :=
  match items with
  | [] => st
  | i :: rest => processItems (addItem st cur i) cur rest
termination_by sizeOf items

end

/-- `raw_items_query`: `parse_or_expand` may fail (`none` ⇒ the default empty
`RawItems`); a source file or a macro-items fragment is processed the same way,
starting at the top-level scope. -/
def lowerFile : Option (List ModuleItem) → CState
  | none => initState
  | some items => processItems initState none items

/-! ## Scope views and the collection invariant -/

/-- The item list of a scope: the top-level list, or the item list of the
module-definition entity the scope index points at (junk `[]` otherwise). -/
def scopeItems (r : RawItems) : Option Nat → List RawItem
  | none => r.items
  | some s =>
    match r.modules[s]? with
    | some (ModuleData.defn _ _ _ l) => l
    | _ => []

/-- A scope reference is valid: top level, or an index at a module-definition
entity (the only case `push_item` accepts without `unreachable!()`). -/
def okScope (r : RawItems) : Option Nat → Bool
  | none => true
  | some s =>
    match r.modules[s]? with
    | some (ModuleData.defn _ _ _ _) => true
    | _ => false

/-- What one collector step preserves about an enclosing scope `cur`: the
module store only grows; modules other than the scope's own are untouched; the
top-level list is untouched when the scope is a module; the scope's item list
is only appended to (and its entity keeps its name, visibility and ast id);
and a step from a valid scope never aborts. -/
structure Keeps (st st' : CState) (cur : Option Nat) : Prop where
  modLen : st.raw.modules.length ≤ st'.raw.modules.length
  others : ∀ j, j < st.raw.modules.length → cur ≠ some j →
    st'.raw.modules[j]? = st.raw.modules[j]?
  topKeep : ∀ s, cur = some s → st'.raw.items = st.raw.items
  scopeApp : okScope st.raw cur = true →
    ∃ t, scopeItems st'.raw cur = scopeItems st.raw cur ++ t ∧
      ∀ s n v a l, cur = some s → st.raw.modules[s]? = some (.defn n v a l) →
        st'.raw.modules[s]? = some (.defn n v a (l ++ t))
  noAbort : st.aborted = false → okScope st.raw cur = true → st'.aborted = false

/-- The scoped-list entries one item contributes to the scope current at the
time it is visited (the tail the visit appends there). -/
def newEntries (st : CState) (cur : Option Nat) (item : ModuleItem) : List RawItem :=
  (scopeItems (addItem st cur item).raw cur).drop (scopeItems st.raw cur).length

/-- The concatenation, in source order, of the entries each item of a scope
contributes, threading the intermediate collector states. -/
def runEntries (st : CState) (cur : Option Nat) : List ModuleItem → List RawItem
  | [] => []
  | i :: rest => newEntries st cur i ++ runEntries (addItem st cur i) cur rest

/-- `count` consecutive import tags starting at index `base`, each paired with
the use statement's attribute set. -/
def importTags (attrs : List Attr) (base : Nat) : Nat → List RawItem
  | 0 => []
  | k + 1 => ⟨attrs, .importTag base⟩ :: importTags attrs (base + 1) k

/-- The definition record an extern-block item yields: present iff the item
has a name, with the function/static kind and the item's own visibility. -/
def extDefOf : ExtItem → Option DefData
  | .fnItem (some n) _ vis aid => some ⟨n, .function aid, vis⟩
  | .staItem (some n) _ vis aid => some ⟨n, .sta aid, vis⟩
  | .fnItem none _ _ _ => none
  | .staItem none _ _ _ => none

/-- The scoped-list entries an extern block's items contribute: one def tag per
named item, indices consecutive from `base`, each with that item's attributes. -/
def extEntries (base : Nat) : List ExtItem → List RawItem
  | [] => []
  | it :: rest =>
    match extDefOf it with
    | some _ => ⟨it.attrs, .defTag base⟩ :: extEntries (base + 1) rest
    | none => extEntries base rest

theorem Keeps.scopeOk {st st' : CState} {cur : Option Nat} (k : Keeps st st' cur)
    (h : okScope st.raw cur = true) : okScope st'.raw cur = true := by
  cases cur with
  | none => rfl
  | some s =>
    obtain ⟨t, _, h2⟩ := k.scopeApp h
    simp only [okScope] at h ⊢
    cases hm : st.raw.modules[s]? with
    | none => simp [hm] at h
    | some md =>
      cases md with
      | decl n v a => simp [hm] at h
      | defn n v a l => simp [h2 s n v a l rfl hm]

theorem Keeps.same (st : CState) (cur : Option Nat) : Keeps st st cur := by
  refine ⟨Nat.le.refl, fun _ _ _ => rfl, fun _ _ => rfl, fun _ => ⟨[], by simp, ?_⟩,
    fun h _ => h⟩
  intro s n v a l _ hm
  simpa using hm

theorem Keeps.comp {a b c : CState} {cur : Option Nat}
    (k1 : Keeps a b cur) (k2 : Keeps b c cur) : Keeps a c cur := by
  refine ⟨Nat.le_trans k1.modLen k2.modLen, ?_, ?_, ?_, ?_⟩
  · intro j hj hne
    rw [k2.others j (Nat.lt_of_lt_of_le hj k1.modLen) hne, k1.others j hj hne]
  · intro s hs
    rw [k2.topKeep s hs, k1.topKeep s hs]
  · intro h
    obtain ⟨t1, ht1, hm1⟩ := k1.scopeApp h
    obtain ⟨t2, ht2, hm2⟩ := k2.scopeApp (k1.scopeOk h)
    refine ⟨t1 ++ t2, by rw [ht2, ht1, List.append_assoc], ?_⟩
    intro s n v a l hcur hm
    rw [← List.append_assoc]
    exact hm2 s n v a (l ++ t1) hcur (hm1 s n v a l hcur hm)
  · intro h1 h2
    exact k2.noAbort (k1.noAbort h1 h2) (k1.scopeOk h2)


/-! ## One-step `Keeps` lemmas for the non-recursive operations -/

theorem Keeps.ofUnchanged (st st' : CState) (cur : Option Nat)
    (hm : st'.raw.modules = st.raw.modules) (hi : st'.raw.items = st.raw.items)
    (ha : st'.aborted = st.aborted) : Keeps st st' cur := by
  constructor
  · simp [hm]
  · intro j hj hne
    rw [hm]
  · intro s hs
    exact hi
  · intro _
    refine ⟨[], ?_, ?_⟩
    · cases cur <;> simp [scopeItems, hm, hi]
    · intro s n v a l hc hmm
      rw [hm]
      simpa using hmm
  · intro h1 h2
    rw [ha, h1]

theorem pushItem_keeps (st : CState) (cur : Option Nat) (attrs : List Attr)
    (kind : RawItemKind) : Keeps st (pushItem st cur attrs kind) cur := by
  cases cur with
  | none =>
    refine ⟨Nat.le.refl, fun j hj hne => rfl, (fun s hs => nomatch hs), ?_, fun h _ => h⟩
    intro _
    exact ⟨[⟨attrs, kind⟩], rfl, fun s n v a l hcur => nomatch hcur⟩
  | some m =>
    simp only [pushItem]
    cases hm : st.raw.modules[m]? with
    | none =>
      refine ⟨Nat.le.refl, fun j hj hne => rfl, fun s hs => rfl, ?_, ?_⟩
      · intro h
        simp [okScope, hm] at h
      · intro _ h
        simp [okScope, hm] at h
    | some md =>
      cases md with
      | decl n v a =>
        refine ⟨Nat.le.refl, fun j hj hne => rfl, fun s hs => rfl, ?_, ?_⟩
        · intro h
          simp [okScope, hm] at h
        · intro _ h
          simp [okScope, hm] at h
      | defn n v a l =>
        have hlt : m < st.raw.modules.length := by
          obtain ⟨h1, _⟩ := List.getElem?_eq_some_iff.mp hm
          exact h1
        refine ⟨by simp, ?_, fun s hs => rfl, ?_, fun h _ => h⟩
        · intro j hj hne
          have hmj : m ≠ j := fun hh => hne (by rw [hh])
          exact List.getElem?_set_ne hmj
        · intro _
          refine ⟨[⟨attrs, kind⟩], ?_, ?_⟩
          · simp only [scopeItems, hm, List.getElem?_set_self hlt]
          · intro s n' v' a' l' hcur hm'
            cases hcur
            rw [hm'] at hm
            cases hm
            simp [List.getElem?_set_self hlt]

theorem pushImport_keeps (st : CState) (cur : Option Nat) (attrs : List Attr)
    (d : ImportData) : Keeps st (pushImport st cur attrs d) cur := by
  simp only [pushImport]
  refine Keeps.comp ?_ (pushItem_keeps _ cur attrs _)
  exact Keeps.ofUnchanged st _ cur rfl rfl rfl

theorem addDef_keeps (st : CState) (cur : Option Nat) (attrs : List Attr) (vis : Vis)
    (kind : DefKind) (name? : Option Name) :
    Keeps st (addDef st cur attrs vis kind name?) cur := by
  cases name? with
  | none => exact Keeps.same st cur
  | some n =>
    simp only [addDef]
    refine Keeps.comp ?_ (pushItem_keeps _ cur attrs _)
    exact Keeps.ofUnchanged st _ cur rfl rfl rfl

theorem foldPushImport_keeps (cur : Option Nat) (attrs : List Attr)
    (ds : List ImportData) : ∀ st : CState,
    Keeps st (ds.foldl (fun s d => pushImport s cur attrs d) st) cur := by
  induction ds with
  | nil => intro st; exact Keeps.same st cur
  | cons d rest ih =>
    intro st
    exact Keeps.comp (pushImport_keeps st cur attrs d) (ih _)

theorem addUseItem_keeps (st : CState) (cur : Option Nat) (attrs : List Attr)
    (vis : Vis) (atoms : List String) (leaves : List UseLeaf) :
    Keeps st (addUseItem st cur attrs vis atoms leaves) cur := by
  simp only [addUseItem]
  exact foldPushImport_keeps cur attrs _ st

theorem addExtCrate_keeps (st : CState) (cur : Option Nat) (nameRef : Option Name)
    (attrs : List Attr) (vis : Vis) (atoms : List String) (al : Option (Option Name)) :
    Keeps st (addExtCrate st cur nameRef attrs vis atoms al) cur := by
  cases nameRef with
  | none => exact Keeps.same st cur
  | some n => exact pushImport_keeps st cur attrs _

theorem addMacCall_keeps (st : CState) (cur : Option Nat) (path? : Option ModPath)
    (name? : Option Name) (attrs : List Attr) (astId : AstId) :
    Keeps st (addMacCall st cur path? name? attrs astId) cur := by
  cases path? with
  | none => exact Keeps.same st cur
  | some p =>
    simp only [addMacCall]
    refine Keeps.comp ?_ (pushItem_keeps _ cur attrs _)
    exact Keeps.ofUnchanged st _ cur rfl rfl rfl

theorem addImpl_keeps (st : CState) (cur : Option Nat) (attrs : List Attr)
    (astId : AstId) : Keeps st (addImpl st cur attrs astId) cur := by
  simp only [addImpl]
  refine Keeps.comp ?_ (pushItem_keeps _ cur attrs _)
  exact Keeps.ofUnchanged st _ cur rfl rfl rfl

theorem addExtItem_keeps (st : CState) (cur : Option Nat) (it : ExtItem) :
    Keeps st (addExtItem st cur it) cur := by
  cases it with
  | fnItem name attrs vis aid => exact addDef_keeps st cur attrs vis _ name
  | staItem name attrs vis aid => exact addDef_keeps st cur attrs vis _ name

theorem addExtBlock_keeps (st : CState) (cur : Option Nat)
    (body : Option (List ExtItem)) : Keeps st (addExtBlock st cur body) cur := by
  cases body with
  | none => exact Keeps.same st cur
  | some its =>
    simp only [addExtBlock]
    induction its generalizing st with
    | nil => exact Keeps.same st cur
    | cons it rest ih =>
      exact Keeps.comp (addExtItem_keeps st cur it) (ih _)

/-! ## Allocation steps and the recursive case -/

theorem okScope_some_iff (r : RawItems) (s : Nat) :
    okScope r (some s) = true ↔ ∃ n v a l, r.modules[s]? = some (.defn n v a l) := by
  simp only [okScope]
  cases hm : r.modules[s]? with
  | none => simp
  | some md =>
    cases md with
    | decl n v a => simp
    | defn n v a l => simp

theorem Keeps.ofAppendMod (st : CState) (cur : Option Nat) (md : ModuleData) :
    Keeps st { st with raw := { st.raw with modules := st.raw.modules ++ [md] } } cur := by
  constructor
  · simp
  · intro j hj hne
    exact List.getElem?_append_left hj
  · intro s hs
    rfl
  · intro h
    refine ⟨[], ?_, ?_⟩
    · rw [List.append_nil]
      cases cur with
      | none => rfl
      | some s =>
        obtain ⟨n, v, a, l, hm⟩ := (okScope_some_iff st.raw s).mp h
        have hs_lt : s < st.raw.modules.length := (List.getElem?_eq_some_iff.mp hm).1
        simp [scopeItems, List.getElem?_append_left hs_lt]
    · intro s n v a l hc hm
      have hs_lt : s < st.raw.modules.length := (List.getElem?_eq_some_iff.mp hm).1
      rw [List.getElem?_append_left hs_lt, hm, List.append_nil]
  · intro h1 _
    exact h1

/-- Existing module entities are untouched by a recursion that runs in the
freshly allocated scope `st.raw.modules.length`. -/
theorem bodyMods (st : CState) (n : Name) (vis : Vis) (aid : AstId) (st2 : CState)
    (k1 : Keeps (allocDefn st n vis aid) st2 (some st.raw.modules.length))
    (s : Nat) (hs : s < st.raw.modules.length) :
    st2.raw.modules[s]? = st.raw.modules[s]? := by
  have h1 : (allocDefn st n vis aid).raw.modules[s]? = st.raw.modules[s]? :=
    List.getElem?_append_left hs
  have h2 := k1.others s (by simp [allocDefn]; omega)
    (fun hh => absurd (Option.some.inj hh) (by omega))
  rw [h2, h1]

/-- The freshly allocated module-definition scope is valid. -/
theorem allocDefn_ok (st : CState) (n : Name) (vis : Vis) (aid : AstId) :
    okScope (allocDefn st n vis aid).raw (some st.raw.modules.length) = true := by
  have : (allocDefn st n vis aid).raw.modules[st.raw.modules.length]? =
      some (.defn n vis aid []) := List.getElem?_concat_length _ _
  simp [okScope, this]

/-- The enclosing scope's item list is unchanged by the recursion over an
inline module body (all its pushes target the fresh scope). -/
theorem bodyScopeEq (st : CState) (cur : Option Nat) (n : Name) (vis : Vis)
    (aid : AstId) (st2 : CState)
    (k1 : Keeps (allocDefn st n vis aid) st2 (some st.raw.modules.length))
    (h : okScope st.raw cur = true) :
    scopeItems st2.raw cur = scopeItems st.raw cur := by
  cases cur with
  | none => exact k1.topKeep _ rfl
  | some s =>
    obtain ⟨n', v', a', l', hm⟩ := (okScope_some_iff st.raw s).mp h
    have hs_lt : s < st.raw.modules.length := (List.getElem?_eq_some_iff.mp hm).1
    have := bodyMods st n vis aid st2 k1 s hs_lt
    simp [scopeItems, this]

/-- The composed effect, on the enclosing scope, of allocating a fresh module
definition and recursing into it. -/
theorem bodyKeeps (st : CState) (cur : Option Nat) (n : Name) (vis : Vis)
    (aid : AstId) (st2 : CState)
    (k1 : Keeps (allocDefn st n vis aid) st2 (some st.raw.modules.length)) :
    Keeps st st2 cur := by
  constructor
  · have h1 : (allocDefn st n vis aid).raw.modules.length = st.raw.modules.length + 1 := by
      simp [allocDefn]
    have h2 := k1.modLen
    omega
  · intro j hj hne
    exact bodyMods st n vis aid st2 k1 j hj
  · intro s hs
    exact k1.topKeep _ rfl
  · intro h
    refine ⟨[], ?_, ?_⟩
    · rw [List.append_nil]
      exact bodyScopeEq st cur n vis aid st2 k1 h
    · intro s n' v' a' l' hc hm
      have hs_lt : s < st.raw.modules.length := (List.getElem?_eq_some_iff.mp hm).1
      rw [bodyMods st n vis aid st2 k1 s hs_lt, hm, List.append_nil]
  · intro h1 _
    exact k1.noAbort h1 (allocDefn_ok st n vis aid)

/-! ## The main invariant of the traversal -/

mutual

/-- Each `add_item` step only extends the state, appends at most to the current
scope's item list, and never aborts when the current scope is valid. -/
theorem addItem_keeps (st : CState) (cur : Option Nat) (item : ModuleItem) :
    Keeps st (addItem st cur item) cur := by
  rw [addItem.eq_def]
  cases item with
  | module name attrs vis aid semi body =>
    cases name with
    | none =>
      exact Keeps.same st cur
    | some n =>
      cases semi with
      | true =>
        exact Keeps.comp (Keeps.ofAppendMod st cur _) (pushItem_keeps _ cur attrs _)
      | false =>
        cases body with
        | none =>
          exact Keeps.same st cur
        | some bs =>
          exact Keeps.comp
            (bodyKeeps st cur n vis aid _
              (processItems_keeps (allocDefn st n vis aid) (some st.raw.modules.length) bs))
            (pushItem_keeps _ cur attrs _)
  | useItem attrs vis atoms leaves =>
    exact addUseItem_keeps st cur attrs vis atoms leaves
  | extCrate nr attrs vis atoms al =>
    exact addExtCrate_keeps st cur nr attrs vis atoms al
  | implDef attrs vis aid =>
    exact addImpl_keeps st cur attrs aid
  | structDef name attrs vis aid sk =>
    exact addDef_keeps st cur attrs vis _ name
  | unionDef name attrs vis aid =>
    exact addDef_keeps st cur attrs vis _ name
  | enumDef name attrs vis aid =>
    exact addDef_keeps st cur attrs vis _ name
  | fnDef name attrs vis aid =>
    exact addDef_keeps st cur attrs vis _ name
  | traitDef name attrs vis aid =>
    exact addDef_keeps st cur attrs vis _ name
  | typeAliasDef name attrs vis aid =>
    exact addDef_keeps st cur attrs vis _ name
  | constDef name attrs vis aid =>
    exact addDef_keeps st cur attrs vis _ name
  | staticDef name attrs vis aid =>
    exact addDef_keeps st cur attrs vis _ name
  | macCall p nm attrs vis aid =>
    exact addMacCall_keeps st cur p nm attrs aid
  | extBlock attrs vis body =>
    exact addExtBlock_keeps st cur body
termination_by sizeOf item

/-- A whole scope's visit only extends the state, appends to the current
scope's list, and never aborts when the current scope is valid. -/
theorem processItems_keeps (st : CState) (cur : Option Nat) (items : List ModuleItem) :
    Keeps st (processItems st cur items) cur := by
  rw [processItems.eq_def]
  cases items with
  | nil =>
    exact Keeps.same st cur
  | cons i rest =>
    exact Keeps.comp (addItem_keeps st cur i)
      (processItems_keeps (addItem st cur i) cur rest)
termination_by sizeOf items

end

/-! ## Unfolding bridges and single-push effects -/

theorem processItems_nil (st : CState) (cur : Option Nat) :
    processItems st cur [] = st := by
  rw [processItems.eq_def]

theorem processItems_cons (st : CState) (cur : Option Nat) (i : ModuleItem)
    (rest : List ModuleItem) :
    processItems st cur (i :: rest) = processItems (addItem st cur i) cur rest := by
  rw [processItems.eq_def]

theorem addItem_module_defn (st : CState) (cur : Option Nat) (n : Name)
    (attrs : List Attr) (vis : Vis) (aid : AstId) (bs : List ModuleItem) :
    addItem st cur (.module (some n) attrs vis aid false (some bs)) =
      pushItem (processItems (allocDefn st n vis aid) (some st.raw.modules.length) bs)
        cur attrs (.moduleTag st.raw.modules.length) := by
  rw [addItem.eq_def]
  rfl

theorem addItem_useItem (st : CState) (cur : Option Nat) (attrs : List Attr)
    (vis : Vis) (atoms : List String) (leaves : List UseLeaf) :
    addItem st cur (.useItem attrs vis atoms leaves) =
      addUseItem st cur attrs vis atoms leaves := by
  rw [addItem.eq_def]

theorem addItem_extCrate (st : CState) (cur : Option Nat) (nr : Option Name)
    (attrs : List Attr) (vis : Vis) (atoms : List String) (al : Option (Option Name)) :
    addItem st cur (.extCrate nr attrs vis atoms al) =
      addExtCrate st cur nr attrs vis atoms al := by
  rw [addItem.eq_def]

theorem addItem_macCall (st : CState) (cur : Option Nat) (p : Option ModPath)
    (nm : Option Name) (attrs : List Attr) (vis : Vis) (aid : AstId) :
    addItem st cur (.macCall p nm attrs vis aid) = addMacCall st cur p nm attrs aid := by
  rw [addItem.eq_def]

theorem addItem_extBlock (st : CState) (cur : Option Nat) (attrs : List Attr)
    (vis : Vis) (body : Option (List ExtItem)) :
    addItem st cur (.extBlock attrs vis body) = addExtBlock st cur body := by
  rw [addItem.eq_def]

theorem scopeItems_eqMod (r r' : RawItems) (hm : r'.modules = r.modules)
    (hi : r'.items = r.items) (cur : Option Nat) :
    scopeItems r' cur = scopeItems r cur := by
  cases cur <;> simp [scopeItems, hm, hi]

theorem okScope_eqMod (r r' : RawItems) (hm : r'.modules = r.modules)
    (cur : Option Nat) : okScope r' cur = okScope r cur := by
  cases cur <;> simp [okScope, hm]

/-- Pushing appends exactly one entry to the current scope's item list. -/
theorem pushItem_scope (st : CState) (cur : Option Nat) (attrs : List Attr)
    (kind : RawItemKind) (h : okScope st.raw cur = true) :
    scopeItems (pushItem st cur attrs kind).raw cur =
      scopeItems st.raw cur ++ [⟨attrs, kind⟩] := by
  cases cur with
  | none => rfl
  | some m =>
    obtain ⟨n, v, a, l, hm⟩ := (okScope_some_iff st.raw m).mp h
    have hlt : m < st.raw.modules.length := (List.getElem?_eq_some_iff.mp hm).1
    simp only [pushItem, hm]
    simp [scopeItems, hm, List.getElem?_set_self hlt]

/-- Pushing touches nothing but the module store contents: the other four
stores, and the module count, are unchanged. -/
theorem pushItem_rest (st : CState) (cur : Option Nat) (attrs : List Attr)
    (kind : RawItemKind) :
    (pushItem st cur attrs kind).raw.imports = st.raw.imports ∧
    (pushItem st cur attrs kind).raw.defs = st.raw.defs ∧
    (pushItem st cur attrs kind).raw.macs = st.raw.macs ∧
    (pushItem st cur attrs kind).raw.impls = st.raw.impls ∧
    (pushItem st cur attrs kind).raw.modules.length = st.raw.modules.length := by
  cases cur with
  | none => exact ⟨rfl, rfl, rfl, rfl, rfl⟩
  | some m =>
    simp only [pushItem]
    cases hm : st.raw.modules[m]? with
    | none => exact ⟨rfl, rfl, rfl, rfl, rfl⟩
    | some md =>
      cases md with
      | decl n v a => exact ⟨rfl, rfl, rfl, rfl, rfl⟩
      | defn n v a l => exact ⟨rfl, rfl, rfl, rfl, by simp⟩

/-- Order preservation: a scope's visit appends exactly the per-item entry
groups, in source order. -/
theorem processItems_scope (cur : Option Nat) :
    ∀ (items : List ModuleItem) (st : CState), okScope st.raw cur = true →
    scopeItems (processItems st cur items).raw cur =
      scopeItems st.raw cur ++ runEntries st cur items := by
  intro items
  induction items with
  | nil =>
    intro st h
    rw [processItems_nil]
    simp [runEntries]
  | cons i rest ih =>
    intro st h
    rw [processItems_cons]
    obtain ⟨t, ht, _⟩ := (addItem_keeps st cur i).scopeApp h
    have hok1 := (addItem_keeps st cur i).scopeOk h
    have hne : newEntries st cur i = t := by
      unfold newEntries
      rw [ht]
      exact List.drop_left _ _
    rw [ih (addItem st cur i) hok1, ht, List.append_assoc]
    congr 1
    simp [runEntries, hne]

/-- Effects of recording one named definition: one record appended to the def
store, one tag appended to the current scope, everything else unchanged. -/
theorem addDef_effects (st : CState) (cur : Option Nat) (attrs : List Attr)
    (vis : Vis) (kind : DefKind) (n : Name) (h : okScope st.raw cur = true) :
    (addDef st cur attrs vis kind (some n)).raw.defs = st.raw.defs ++ [⟨n, kind, vis⟩] ∧
    scopeItems (addDef st cur attrs vis kind (some n)).raw cur =
      scopeItems st.raw cur ++ [⟨attrs, .defTag st.raw.defs.length⟩] ∧
    (addDef st cur attrs vis kind (some n)).raw.modules.length = st.raw.modules.length ∧
    (addDef st cur attrs vis kind (some n)).raw.imports = st.raw.imports ∧
    (addDef st cur attrs vis kind (some n)).raw.macs = st.raw.macs ∧
    (addDef st cur attrs vis kind (some n)).raw.impls = st.raw.impls := by
  simp only [addDef]
  set st1 : CState :=
    { st with raw := { st.raw with defs := st.raw.defs ++ [⟨n, kind, vis⟩] } } with hst1
  have hmod : st1.raw.modules = st.raw.modules := rfl
  have hsc : scopeItems st1.raw cur = scopeItems st.raw cur :=
    scopeItems_eqMod st.raw st1.raw hmod rfl cur
  have hok1 : okScope st1.raw cur = true := by
    rw [okScope_eqMod st.raw st1.raw hmod cur]
    exact h
  obtain ⟨h1, h2, h3, h4, h5⟩ := pushItem_rest st1 cur attrs (.defTag st.raw.defs.length)
  refine ⟨by rw [h2], ?_, by rw [h5], by rw [h1], by rw [h3], by rw [h4]⟩
  rw [pushItem_scope st1 cur attrs _ hok1, hsc]

/-- Effects of pushing one import record. -/
theorem pushImport_effects (st : CState) (cur : Option Nat) (attrs : List Attr)
    (d : ImportData) (h : okScope st.raw cur = true) :
    (pushImport st cur attrs d).raw.imports = st.raw.imports ++ [d] ∧
    scopeItems (pushImport st cur attrs d).raw cur =
      scopeItems st.raw cur ++ [⟨attrs, .importTag st.raw.imports.length⟩] ∧
    (pushImport st cur attrs d).raw.modules.length = st.raw.modules.length ∧
    (pushImport st cur attrs d).raw.defs = st.raw.defs ∧
    (pushImport st cur attrs d).raw.macs = st.raw.macs ∧
    (pushImport st cur attrs d).raw.impls = st.raw.impls := by
  simp only [pushImport]
  set st1 : CState :=
    { st with raw := { st.raw with imports := st.raw.imports ++ [d] } } with hst1
  have hmod : st1.raw.modules = st.raw.modules := rfl
  have hsc : scopeItems st1.raw cur = scopeItems st.raw cur :=
    scopeItems_eqMod st.raw st1.raw hmod rfl cur
  have hok1 : okScope st1.raw cur = true := by
    rw [okScope_eqMod st.raw st1.raw hmod cur]
    exact h
  obtain ⟨h1, h2, h3, h4, h5⟩ := pushItem_rest st1 cur attrs (.importTag st.raw.imports.length)
  refine ⟨by rw [h1], ?_, by rw [h5], by rw [h2], by rw [h3], by rw [h4]⟩
  rw [pushItem_scope st1 cur attrs _ hok1, hsc]

/-- Folding a buffer of import records: all are appended to the import store in
callback order, with one consecutive import tag each on the current scope. -/
theorem foldPushImport_spec (cur : Option Nat) (attrs : List Attr) :
    ∀ (ds : List ImportData) (st : CState), okScope st.raw cur = true →
    (ds.foldl (fun s d => pushImport s cur attrs d) st).raw.imports =
      st.raw.imports ++ ds ∧
    scopeItems (ds.foldl (fun s d => pushImport s cur attrs d) st).raw cur =
      scopeItems st.raw cur ++ importTags attrs st.raw.imports.length ds.length := by
  intro ds
  induction ds with
  | nil =>
    intro st h
    simp [importTags]
  | cons d rest ih =>
    intro st h
    rw [List.foldl_cons]
    have hok1 : okScope (pushImport st cur attrs d).raw cur = true :=
      (pushImport_keeps st cur attrs d).scopeOk h
    obtain ⟨e1, e2, _, _, _, _⟩ := pushImport_effects st cur attrs d h
    obtain ⟨i1, i2⟩ := ih (pushImport st cur attrs d) hok1
    constructor
    · rw [i1, e1]
      simp
    · rw [i2, e2, e1, List.append_assoc]
      congr 1
      simp [importTags, List.length_append]

/-- Folding an extern block's items: one def record and one consecutive def
tag per named item (in source order), nothing else touched. -/
theorem foldExtItems_spec (cur : Option Nat) :
    ∀ (its : List ExtItem) (st : CState), okScope st.raw cur = true →
    (its.foldl (fun s it => addExtItem s cur it) st).raw.defs =
      st.raw.defs ++ its.filterMap extDefOf ∧
    scopeItems (its.foldl (fun s it => addExtItem s cur it) st).raw cur =
      scopeItems st.raw cur ++ extEntries st.raw.defs.length its ∧
    (its.foldl (fun s it => addExtItem s cur it) st).raw.modules.length =
      st.raw.modules.length ∧
    (its.foldl (fun s it => addExtItem s cur it) st).raw.imports = st.raw.imports ∧
    (its.foldl (fun s it => addExtItem s cur it) st).raw.macs = st.raw.macs ∧
    (its.foldl (fun s it => addExtItem s cur it) st).raw.impls = st.raw.impls := by
  intro its
  induction its with
  | nil =>
    intro st h
    simp [extEntries]
  | cons it rest ih =>
    intro st h
    rw [List.foldl_cons]
    cases it with
    | fnItem name attrs vis aid =>
      cases name with
      | none =>
        have hstep : addExtItem st cur (.fnItem none attrs vis aid) = st := rfl
        rw [hstep]
        obtain ⟨i1, i2, i3, i4, i5, i6⟩ := ih st h
        exact ⟨by rw [i1]; simp [extDefOf],
          by rw [i2]; simp [extEntries, extDefOf], i3, i4, i5, i6⟩
      | some n =>
        have hstep : addExtItem st cur (.fnItem (some n) attrs vis aid) =
          addDef st cur attrs vis (.function aid) (some n) := rfl
        rw [hstep]
        obtain ⟨e1, e2, e3, e4, e5, e6⟩ :=
          addDef_effects st cur attrs vis (.function aid) n h
        have hok1 : okScope (addDef st cur attrs vis (.function aid) (some n)).raw cur = true :=
          (addDef_keeps st cur attrs vis (.function aid) (some n)).scopeOk h
        obtain ⟨i1, i2, i3, i4, i5, i6⟩ := ih _ hok1
        refine ⟨?_, ?_, by rw [i3, e3], by rw [i4, e4], by rw [i5, e5], by rw [i6, e6]⟩
        · rw [i1, e1]
          simp [extDefOf]
        · rw [i2, e2, e1, List.append_assoc]
          congr 1
          simp [extEntries, extDefOf, ExtItem.attrs]
    | staItem name attrs vis aid =>
      cases name with
      | none =>
        have hstep : addExtItem st cur (.staItem none attrs vis aid) = st := rfl
        rw [hstep]
        obtain ⟨i1, i2, i3, i4, i5, i6⟩ := ih st h
        exact ⟨by rw [i1]; simp [extDefOf],
          by rw [i2]; simp [extEntries, extDefOf], i3, i4, i5, i6⟩
      | some n =>
        have hstep : addExtItem st cur (.staItem (some n) attrs vis aid) =
          addDef st cur attrs vis (.sta aid) (some n) := rfl
        rw [hstep]
        obtain ⟨e1, e2, e3, e4, e5, e6⟩ :=
          addDef_effects st cur attrs vis (.sta aid) n h
        have hok1 : okScope (addDef st cur attrs vis (.sta aid) (some n)).raw cur = true :=
          (addDef_keeps st cur attrs vis (.sta aid) (some n)).scopeOk h
        obtain ⟨i1, i2, i3, i4, i5, i6⟩ := ih _ hok1
        refine ⟨?_, ?_, by rw [i3, e3], by rw [i4, e4], by rw [i5, e5], by rw [i6, e6]⟩
        · rw [i1, e1]
          simp [extDefOf]
        · rw [i2, e2, e1, List.append_assoc]
          congr 1
          simp [extEntries, extDefOf, ExtItem.attrs]

/-! ## Claim theorems -/

theorem addItem_module_broken (st : CState) (cur : Option Nat) (n : Name)
    (attrs : List Attr) (vis : Vis) (aid : AstId) :
    addItem st cur (.module (some n) attrs vis aid false none) = st := by
  rw [addItem.eq_def]
  rfl

/-- C6: a module with a name but neither a semicolon nor a body item list
allocates no module entity and appends no tag (the state is unchanged), and
sibling items before and after it are collected exactly as without it. -/
theorem claim_c6_broken_module (st : CState) (cur : Option Nat) (n : Name)
    (attrs : List Attr) (vis : Vis) (aid : AstId)
    (pre post : List ModuleItem) :
    addItem st cur (.module (some n) attrs vis aid false none) = st ∧
    processItems st cur (pre ++ .module (some n) attrs vis aid false none :: post) =
      processItems st cur (pre ++ post) := by
  refine ⟨addItem_module_broken st cur n attrs vis aid, ?_⟩
  induction pre generalizing st with
  | nil =>
    rw [List.nil_append, List.nil_append, processItems_cons, addItem_module_broken]
  | cons x xs ih =>
    rw [List.cons_append, List.cons_append, processItems_cons, processItems_cons]
    exact ih _

/-- C7: lowering is total (every input, even `none` from a failed parse, yields
a raw item set) and every name-required item without a name, and a macro call
without a resolvable path, contributes nothing: the whole collector state —
all stores and the current scope's item list — is unchanged. -/
theorem claim_c7_silent_omission (osrc : Option (List ModuleItem)) (st : CState)
    (cur : Option Nat) (attrs : List Attr) (vis : Vis) (aid : AstId) (semi : Bool)
    (body : Option (List ModuleItem)) (sk : StructDefKind) (nm : Option Name) :
    (∃ r : CState, lowerFile osrc = r) ∧
    addItem st cur (.module none attrs vis aid semi body) = st ∧
    addItem st cur (.structDef none attrs vis aid sk) = st ∧
    addItem st cur (.unionDef none attrs vis aid) = st ∧
    addItem st cur (.enumDef none attrs vis aid) = st ∧
    addItem st cur (.fnDef none attrs vis aid) = st ∧
    addItem st cur (.traitDef none attrs vis aid) = st ∧
    addItem st cur (.typeAliasDef none attrs vis aid) = st ∧
    addItem st cur (.constDef none attrs vis aid) = st ∧
    addItem st cur (.staticDef none attrs vis aid) = st ∧
    addItem st cur (.macCall none nm attrs vis aid) = st := by
  refine ⟨⟨_, rfl⟩, ?_, ?_, ?_, ?_, ?_, ?_, ?_, ?_, ?_, ?_⟩ <;>
    (rw [addItem.eq_def]; try rfl)

/-- C9: lowering is deterministic — for one fixed input (syntax tree with its
oracle answers baked in), repeated invocations agree on every store, every
count and the top-level tag sequence. -/
theorem claim_c9_deterministic (osrc : Option (List ModuleItem)) :
    lowerFile osrc = lowerFile osrc ∧
    (lowerFile osrc).raw.modules = (lowerFile osrc).raw.modules ∧
    (lowerFile osrc).raw.imports = (lowerFile osrc).raw.imports ∧
    (lowerFile osrc).raw.defs = (lowerFile osrc).raw.defs ∧
    (lowerFile osrc).raw.macs = (lowerFile osrc).raw.macs ∧
    (lowerFile osrc).raw.impls = (lowerFile osrc).raw.impls ∧
    (lowerFile osrc).raw.items = (lowerFile osrc).raw.items ∧
    (lowerFile osrc).raw.modules.length = (lowerFile osrc).raw.modules.length :=
  ⟨rfl, rfl, rfl, rfl, rfl, rfl, rfl, rfl⟩

/-- C10: collection always runs to completion: the `unreachable!()` branch of
`push_item` (embedded as the `aborted` flag) is never reached, because every
scope index passed as the current module points at a Definition entity. -/
theorem claim_c10_no_abort (osrc : Option (List ModuleItem)) :
    (lowerFile osrc).aborted = false := by
  cases osrc with
  | none => rfl
  | some items => exact (processItems_keeps initState none items).noAbort rfl rfl

/-- C1: for a module with an inline body, a Definition entity with an empty
item list is allocated before the body is visited; the recursion targets that
entity's own list (the enclosing scope's list is unchanged by it, and the
entity ends up holding exactly the body's entries); and the module's own tag
is appended to the enclosing scope only after the recursion. -/
theorem claim_c1_module_body (st : CState) (cur : Option Nat) (n : Name)
    (attrs : List Attr) (vis : Vis) (aid : AstId) (bs : List ModuleItem)
    (h : okScope st.raw cur = true) :
    (allocDefn st n vis aid).raw.modules[st.raw.modules.length]? =
      some (.defn n vis aid []) ∧
    addItem st cur (.module (some n) attrs vis aid false (some bs)) =
      pushItem (processItems (allocDefn st n vis aid) (some st.raw.modules.length) bs)
        cur attrs (.moduleTag st.raw.modules.length) ∧
    scopeItems
        (processItems (allocDefn st n vis aid) (some st.raw.modules.length) bs).raw cur =
      scopeItems st.raw cur ∧
    scopeItems (addItem st cur (.module (some n) attrs vis aid false (some bs))).raw cur =
      scopeItems st.raw cur ++ [⟨attrs, .moduleTag st.raw.modules.length⟩] ∧
    (processItems (allocDefn st n vis aid)
        (some st.raw.modules.length) bs).raw.modules[st.raw.modules.length]? =
      some (.defn n vis aid
        (runEntries (allocDefn st n vis aid) (some st.raw.modules.length) bs)) := by
  have halloc : (allocDefn st n vis aid).raw.modules[st.raw.modules.length]? =
      some (.defn n vis aid []) := List.getElem?_concat_length _ _
  have k1 := processItems_keeps (allocDefn st n vis aid) (some st.raw.modules.length) bs
  have hok1 := allocDefn_ok st n vis aid
  have hbody := bodyScopeEq st cur n vis aid _ k1 h
  have hkeep := bodyKeeps st cur n vis aid _ k1
  have hok2 := hkeep.scopeOk h
  refine ⟨halloc, addItem_module_defn st cur n attrs vis aid bs, hbody, ?_, ?_⟩
  · rw [addItem_module_defn, pushItem_scope _ cur attrs _ hok2, hbody]
  · have hscope1 : scopeItems (allocDefn st n vis aid).raw (some st.raw.modules.length) =
        [] := by
      simp [scopeItems, halloc]
    have hsc2 := processItems_scope (some st.raw.modules.length) bs (allocDefn st n vis aid) hok1
    rw [hscope1, List.nil_append] at hsc2
    obtain ⟨t, ht, hmod⟩ := k1.scopeApp hok1
    rw [hscope1, List.nil_append] at ht
    rw [ht] at hsc2
    have hmm := hmod st.raw.modules.length n vis aid [] rfl halloc
    rw [hmm, List.nil_append, hsc2]

/-- C2: tags are only appended, in visitation order, to the scope current at
the time: a scope's visit extends its list by exactly the per-item entry
groups in source order, and the top-level list of a lowered file is exactly
the run of its top-level items' entries. -/
theorem claim_c2_scope_order (st : CState) (cur : Option Nat)
    (items src : List ModuleItem) (h : okScope st.raw cur = true) :
    scopeItems (processItems st cur items).raw cur =
      scopeItems st.raw cur ++ runEntries st cur items ∧
    (lowerFile (some src)).raw.items = runEntries initState none src := by
  refine ⟨processItems_scope cur items st h, ?_⟩
  have h2 := processItems_scope none src initState rfl
  simpa [scopeItems, lowerFile] using h2

/-- C3: the macro-invocation record of a macro call with a resolvable path has
`export` true iff a `macro_export` attribute key exists; `local_inner` true iff
`export` is true and some identifier token among that key's token-tree
arguments contains `"local_inner_macros"` as a substring; both false when no
`macro_export` key exists, whatever other tokens are present; and `builtin`
true iff the `rustc_builtin_macro` key exists. -/
theorem claim_c3_mac_flags (st : CState) (cur : Option Nat) (p : ModPath)
    (nm : Option Name) (attrs : List Attr) (vis : Vis) (aid : AstId) :
    ∃ md : MacData,
      (addItem st cur (.macCall (some p) nm attrs vis aid)).raw.macs[st.raw.macs.length]? =
        some md ∧
      md.astId = aid ∧ md.path = p ∧ md.name = nm ∧
      (md.exportFlag = true ↔ ∃ a ∈ attrs, a.key = "macro_export") ∧
      (md.localInner = true ↔ md.exportFlag = true ∧
        ∃ ts ∈ ttValues attrs "macro_export", ∃ t ∈ ts, ∃ s,
          t = TokenTree.identLeaf s ∧ strContains s "local_inner_macros" = true) ∧
      (keyExists attrs "macro_export" = false →
        md.exportFlag = false ∧ md.localInner = false) ∧
      (md.builtin = true ↔ ∃ a ∈ attrs, a.key = "rustc_builtin_macro") := by
  rw [addItem_macCall]
  simp only [addMacCall]
  refine ⟨⟨aid, p, nm, keyExists attrs "macro_export",
    (if keyExists attrs "macro_export" = true then
      (ttValues attrs "macro_export").flatten.any (fun t =>
        match t with
        | TokenTree.identLeaf s => strContains s "local_inner_macros"
        | TokenTree.otherTok => false)
    else false), keyExists attrs "rustc_builtin_macro"⟩,
    ?_, rfl, rfl, rfl, ?_, ?_, ?_, ?_⟩
  · rw [(pushItem_rest _ cur attrs _).2.2.1]
    exact List.getElem?_concat_length _ _
  · simp [keyExists, List.any_eq_true]
  · cases hexp : keyExists attrs "macro_export" with
    | false => simp [hexp]
    | true =>
      rw [if_pos rfl]
      simp only [true_and]
      rw [List.any_eq_true]
      constructor
      · rintro ⟨t, htmem, hgt⟩
        obtain ⟨l, hlL, htl⟩ := List.mem_flatten.mp htmem
        cases t with
        | identLeaf s => exact ⟨l, hlL, _, htl, s, rfl, hgt⟩
        | otherTok => simp at hgt
      · rintro ⟨l, hlL, t, htl, s, rfl, hs⟩
        exact ⟨TokenTree.identLeaf s, List.mem_flatten.mpr ⟨l, hlL, htl⟩, hs⟩
  · intro hne
    constructor
    · exact hne
    · rw [hne]
      simp
  · simp [keyExists, List.any_eq_true]

/-- C4: a use statement's flattened leaves each yield one import record (in
callback order) sharing the statement's visibility and prelude flag, with
`is_extern_crate` and `is_macro_use` false, while path, alias and glob come
from the leaf; one consecutive import tag per leaf, each carrying the
statement's attribute set, is appended to the current scope. -/
theorem claim_c4_use_item (st : CState) (cur : Option Nat) (attrs : List Attr)
    (vis : Vis) (atoms : List String) (leaves : List UseLeaf)
    (h : okScope st.raw cur = true) :
    (addItem st cur (.useItem attrs vis atoms leaves)).raw.imports =
      st.raw.imports ++ leaves.map (fun l =>
        ImportData.mk l.path l.al l.isGlob (atoms.contains "prelude_import")
          false false vis) ∧
    scopeItems (addItem st cur (.useItem attrs vis atoms leaves)).raw cur =
      scopeItems st.raw cur ++ importTags attrs st.raw.imports.length leaves.length := by
  rw [addItem_useItem]
  simp only [addUseItem]
  obtain ⟨f1, f2⟩ := foldPushImport_spec cur attrs
    (leaves.map (fun l =>
      ImportData.mk l.path l.al l.isGlob (atoms.contains "prelude_import")
        false false vis)) st h
  refine ⟨f1, ?_⟩
  rw [f2]
  simp

/-- C5: an extern-crate statement with a name reference yields exactly one import
record: a one-segment path from the name, `is_extern_crate` true, glob
and prelude false, `is_macro_use` from the `macro_use` atom attribute, and the
alias mapped from the alias syntax (absent / underscore / named); one tag is
appended. Without a name reference nothing is recorded. -/
theorem claim_c5_ext_crate (st : CState) (cur : Option Nat) (n : Name)
    (attrs : List Attr) (vis : Vis) (atoms : List String) (al : Option (Option Name))
    (h : okScope st.raw cur = true) :
    (addItem st cur (.extCrate (some n) attrs vis atoms al)).raw.imports =
      st.raw.imports ++ [⟨⟨[n]⟩,
        (match al with
         | none => none
         | some none => some ImportAlias.under
         | some (some nm) => some (ImportAlias.named nm)),
        false, false, true, atoms.contains "macro_use", vis⟩] ∧
    scopeItems (addItem st cur (.extCrate (some n) attrs vis atoms al)).raw cur =
      scopeItems st.raw cur ++ [⟨attrs, .importTag st.raw.imports.length⟩] ∧
    addItem st cur (.extCrate none attrs vis atoms al) = st := by
  have e3 : addItem st cur (.extCrate none attrs vis atoms al) = st := by
    rw [addItem_extCrate]
    rfl
  rw [addItem_extCrate]
  simp only [addExtCrate]
  have halmap : al.map (fun an =>
      match an with
      | some nm => ImportAlias.named nm
      | none => ImportAlias.under) =
      (match al with
       | none => none
       | some none => some ImportAlias.under
       | some (some nm) => some (ImportAlias.named nm)) := by
    cases al with
    | none => rfl
    | some an => cases an <;> rfl
  obtain ⟨e1, e2, _, _, _, _⟩ := pushImport_effects st cur attrs
    ⟨⟨[n]⟩, al.map (fun an =>
      match an with
      | some nm => ImportAlias.named nm
      | none => ImportAlias.under),
      false, false, true, atoms.contains "macro_use", vis⟩ h
  refine ⟨?_, e2, e3⟩
  rw [e1, halmap]

/-- C8: an extern block introduces no scope and no record of its own; its
named function/static items are folded into the shared def store under the
same name-required-or-dropped rule, with one consecutive def tag per named
item appended directly to the current scope; a block without an item list
contributes nothing. -/
theorem claim_c8_ext_block (st : CState) (cur : Option Nat) (attrs : List Attr)
    (vis : Vis) (its : List ExtItem) (h : okScope st.raw cur = true) :
    (addItem st cur (.extBlock attrs vis (some its))).raw.defs =
      st.raw.defs ++ its.filterMap extDefOf ∧
    scopeItems (addItem st cur (.extBlock attrs vis (some its))).raw cur =
      scopeItems st.raw cur ++ extEntries st.raw.defs.length its ∧
    (addItem st cur (.extBlock attrs vis (some its))).raw.modules.length =
      st.raw.modules.length ∧
    (addItem st cur (.extBlock attrs vis (some its))).raw.imports = st.raw.imports ∧
    (addItem st cur (.extBlock attrs vis (some its))).raw.macs = st.raw.macs ∧
    (addItem st cur (.extBlock attrs vis (some its))).raw.impls = st.raw.impls ∧
    addItem st cur (.extBlock attrs vis none) = st := by
  have e7 : addItem st cur (.extBlock attrs vis none) = st := by
    rw [addItem_extBlock]
    rfl
  rw [addItem_extBlock]
  simp only [addExtBlock]
  obtain ⟨i1, i2, i3, i4, i5, i6⟩ := foldExtItems_spec cur its st h
  exact ⟨i1, i2, i3, i4, i5, i6, e7⟩

/-! ## Witnesses -/

theorem claim_c1_witness :
    okScope initState.raw none = true ∧
    ((allocDefn initState "m" 0 0).raw.modules[initState.raw.modules.length]? =
      some (.defn "m" 0 0 []) ∧
    addItem initState none
        (.module (some "m") [] 0 0 false (some [ModuleItem.fnDef (some "f") [] 0 1])) =
      pushItem
        (processItems (allocDefn initState "m" 0 0) (some initState.raw.modules.length)
          [ModuleItem.fnDef (some "f") [] 0 1])
        none [] (.moduleTag initState.raw.modules.length) ∧
    scopeItems
        (processItems (allocDefn initState "m" 0 0) (some initState.raw.modules.length)
          [ModuleItem.fnDef (some "f") [] 0 1]).raw none =
      scopeItems initState.raw none ∧
    scopeItems (addItem initState none
        (.module (some "m") [] 0 0 false
          (some [ModuleItem.fnDef (some "f") [] 0 1]))).raw none =
      scopeItems initState.raw none ++ [⟨[], .moduleTag initState.raw.modules.length⟩] ∧
    (processItems (allocDefn initState "m" 0 0)
        (some initState.raw.modules.length)
        [ModuleItem.fnDef (some "f") [] 0 1]).raw.modules[initState.raw.modules.length]? =
      some (.defn "m" 0 0
        (runEntries (allocDefn initState "m" 0 0) (some initState.raw.modules.length)
          [ModuleItem.fnDef (some "f") [] 0 1]))) :=
  ⟨rfl, claim_c1_module_body initState none "m" [] 0 0
    [ModuleItem.fnDef (some "f") [] 0 1] rfl⟩

theorem claim_c2_witness :
    okScope initState.raw none = true ∧
    (scopeItems (processItems initState none [ModuleItem.implDef [] 0 0]).raw none =
      scopeItems initState.raw none ++
        runEntries initState none [ModuleItem.implDef [] 0 0] ∧
    (lowerFile (some [ModuleItem.implDef [] 0 0])).raw.items =
      runEntries initState none [ModuleItem.implDef [] 0 0]) :=
  ⟨rfl, claim_c2_scope_order initState none [ModuleItem.implDef [] 0 0]
    [ModuleItem.implDef [] 0 0] rfl⟩

theorem claim_c4_witness :
    okScope initState.raw none = true ∧
    ((addItem initState none
        (.useItem [⟨"prelude_import", none⟩] 7 ["prelude_import"]
          [⟨⟨["a"]⟩, none, false⟩, ⟨⟨["b"]⟩, some (ImportAlias.named "c"), true⟩])).raw.imports =
      initState.raw.imports ++
        [⟨⟨["a"]⟩, none, false, true, false, false, 7⟩] ++
        [⟨⟨["b"]⟩, some (ImportAlias.named "c"), true, true, false, false, 7⟩] ∧
    scopeItems (addItem initState none
        (.useItem [⟨"prelude_import", none⟩] 7 ["prelude_import"]
          [⟨⟨["a"]⟩, none, false⟩,
           ⟨⟨["b"]⟩, some (ImportAlias.named "c"), true⟩])).raw none =
      scopeItems initState.raw none ++
        importTags [⟨"prelude_import", none⟩] initState.raw.imports.length 2) := by
  have hz := claim_c4_use_item initState none [⟨"prelude_import", none⟩] 7
    ["prelude_import"]
    [⟨⟨["a"]⟩, none, false⟩, ⟨⟨["b"]⟩, some (ImportAlias.named "c"), true⟩] rfl
  constructor
  · rfl
  constructor
  · rw [hz.1]
    decide
  · exact hz.2

theorem claim_c5_witness :
    okScope initState.raw none = true ∧
    ((addItem initState none
        (.extCrate (some "foo") [] 3 ["macro_use"] (some none))).raw.imports =
      initState.raw.imports ++ [⟨⟨["foo"]⟩, some ImportAlias.under,
        false, false, true, true, 3⟩] ∧
    scopeItems (addItem initState none
        (.extCrate (some "foo") [] 3 ["macro_use"] (some none))).raw none =
      scopeItems initState.raw none ++
        [⟨[], .importTag initState.raw.imports.length⟩] ∧
    addItem initState none (.extCrate none [] 3 ["macro_use"] (some none)) =
      initState) := by
  have hz := claim_c5_ext_crate initState none "foo" [] 3 ["macro_use"] (some none) rfl
  refine ⟨rfl, ?_, hz.2.1, hz.2.2⟩
  rw [hz.1]
  decide

theorem claim_c8_witness :
    okScope initState.raw none = true ∧
    ((addItem initState none
        (.extBlock [] 0 (some [ExtItem.fnItem (some "f") [] 0 0,
          ExtItem.staItem none [] 0 1]))).raw.defs =
      initState.raw.defs ++
        [ExtItem.fnItem (some "f") [] 0 0,
          ExtItem.staItem none [] 0 1].filterMap extDefOf ∧
    scopeItems (addItem initState none
        (.extBlock [] 0 (some [ExtItem.fnItem (some "f") [] 0 0,
          ExtItem.staItem none [] 0 1]))).raw none =
      scopeItems initState.raw none ++
        extEntries initState.raw.defs.length
          [ExtItem.fnItem (some "f") [] 0 0, ExtItem.staItem none [] 0 1] ∧
    (addItem initState none
        (.extBlock [] 0 (some [ExtItem.fnItem (some "f") [] 0 0,
          ExtItem.staItem none [] 0 1]))).raw.modules.length =
      initState.raw.modules.length ∧
    (addItem initState none
        (.extBlock [] 0 (some [ExtItem.fnItem (some "f") [] 0 0,
          ExtItem.staItem none [] 0 1]))).raw.imports = initState.raw.imports ∧
    (addItem initState none
        (.extBlock [] 0 (some [ExtItem.fnItem (some "f") [] 0 0,
          ExtItem.staItem none [] 0 1]))).raw.macs = initState.raw.macs ∧
    (addItem initState none
        (.extBlock [] 0 (some [ExtItem.fnItem (some "f") [] 0 0,
          ExtItem.staItem none [] 0 1]))).raw.impls = initState.raw.impls ∧
    addItem initState none (.extBlock [] 0 none) = initState) :=
  ⟨rfl, claim_c8_ext_block initState none [] 0
    [ExtItem.fnItem (some "f") [] 0 0, ExtItem.staItem none [] 0 1] rfl⟩
